import Mathlib

/-!
# Verification of the Guacamole connection tester core

A shallow embedding, in Lean 4, of the client-side core of the
guacamole-connection-tester repository:

* `Statistics` (src/main/resources/types/Statistics.js): sorted samples,
  median, mean/median absolute deviation;
* `Thresholds` (src/main/resources/types/Server.js): the sorted latency
  threshold list, `getNiceness` and `getColor`;
* `Result.pack` / `Result.unpack` (the Result service revision that
  classifies through a `Thresholds` instance);
* the adaptive sampler (`isAccurate` / `gatherSamples` of
  statisticalMeasurementService.js, the revision with the
  proportional-or-absolute mean-absolute-deviation rule);
* the scheduler of connectionTestingService.js (`testServers`,
  `spawnTests`, `startTest`), modelled as a transition system over the
  per-destination active-test set.

Modelling conventions:

* JavaScript numbers are modelled as exact rationals (`ℚ`);
  `Number.POSITIVE_INFINITY` is `⊤` in `WithTop ℚ`.
* A JavaScript object used as a map is modelled as an association list
  `List (String × α)` in property insertion order; property assignment is
  `objSet` (replace in place when the key exists, append otherwise) and
  property lookup is `lookupKey`.
* `Array.prototype.sort` with the numeric comparator is a stable ascending
  sort, modelled by `List.insertionSort (· ≤ ·)` (stable sorts of the same
  list agree).
* The deflate/base64 wire encoding of `Result.pack` (`pako.deflateRaw`,
  `btoa` and their inverses, external libraries to this repository) is
  treated as a transparent encoding: the packed value is modelled as the
  URL-to-samples map itself.
-/

/-! ## Statistics (types/Statistics.js) -/

/-- Ascending numeric sort: models `sort(numericComparator)` from
Statistics.js (a stable sort by the comparator `a - b`). -/
def sortNumeric (l : List ℚ) : List ℚ :=
  List.insertionSort (· ≤ ·) l

/-- `getMean` of Statistics.js: the average of the samples, zero for an
empty set. -/
def getMean (samples : List ℚ) : ℚ :=
  if samples.length = 0 then 0 else samples.sum / (samples.length : ℚ)

/-- `getMedian` of Statistics.js: the middle value of an (already sorted)
odd-length set, the average of the two middle values of an even-length
set, zero for an empty set. -/
def getMedian (samples : List ℚ) : ℚ :=
  if samples.length = 0 then 0
  else if samples.length % 2 = 1 then samples.getD ((samples.length - 1) / 2) 0
  else (samples.getD (samples.length / 2 - 1) 0 + samples.getD (samples.length / 2) 0) / 2

/-- `getAbsoluteDeviations` of Statistics.js: the absolute deviation of
each sample from `value`. -/
def getAbsoluteDeviations (samples : List ℚ) (value : ℚ) : List ℚ :=
  samples.map (fun x => |x - value|)

/-- The `Statistics` record: all fields are computed at construction time
by `Statistics.ofSamples`. -/
structure Statistics where
  samples : List ℚ
  median : ℚ
  meanAbsoluteDeviation : ℚ
  medianAbsoluteDeviation : ℚ
deriving DecidableEq

/-- The `Statistics` constructor: sorts a copy of the samples, takes the
median, then sorts the per-sample absolute deviations and takes their mean
and median. -/
def Statistics.ofSamples (samples : List ℚ) : Statistics :=
  let sorted := sortNumeric samples
  let median := getMedian sorted
  let deviations := sortNumeric (getAbsoluteDeviations sorted median)
  { samples := sorted
    median := median
    meanAbsoluteDeviation := getMean deviations
    medianAbsoluteDeviation := getMedian deviations }

@[simp] theorem Statistics.ofSamples_samples (l : List ℚ) :
    (Statistics.ofSamples l).samples = sortNumeric l := rfl

@[simp] theorem Statistics.ofSamples_median (l : List ℚ) :
    (Statistics.ofSamples l).median = getMedian (sortNumeric l) := rfl

@[simp] theorem Statistics.ofSamples_mad (l : List ℚ) :
    (Statistics.ofSamples l).meanAbsoluteDeviation
      = getMean (sortNumeric (getAbsoluteDeviations (sortNumeric l) (getMedian (sortNumeric l)))) := rfl

@[simp] theorem Statistics.ofSamples_mdad (l : List ℚ) :
    (Statistics.ofSamples l).medianAbsoluteDeviation
      = getMedian (sortNumeric (getAbsoluteDeviations (sortNumeric l) (getMedian (sortNumeric l)))) := rfl

theorem sortNumeric_perm (l : List ℚ) : List.Perm (sortNumeric l) l :=
  List.perm_insertionSort _ l

theorem sortNumeric_sorted (l : List ℚ) : (sortNumeric l).Sorted (· ≤ ·) :=
  List.sorted_insertionSort _ l

@[simp] theorem sortNumeric_length (l : List ℚ) : (sortNumeric l).length = l.length :=
  (sortNumeric_perm l).length_eq

theorem sortNumeric_eq_of_perm {l₁ l₂ : List ℚ} (h : List.Perm l₁ l₂) :
    sortNumeric l₁ = sortNumeric l₂ :=
  List.eq_of_perm_of_sorted
    (((sortNumeric_perm l₁).trans h).trans (sortNumeric_perm l₂).symm)
    (sortNumeric_sorted l₁) (sortNumeric_sorted l₂)

/-! ## Thresholds (types/Server.js) -/

/-- One latency threshold: `min` is the minimum latency of the band
(`⊤` models `Number.POSITIVE_INFINITY`), `color` its CSS color. -/
structure Threshold where
  min : WithTop ℚ
  color : String
deriving DecidableEq

/-- The comparator `a.min - b.min` of the constructor sort, as an order
relation: earlier thresholds have smaller minimum latency. -/
def thresholdLE (a b : Threshold) : Prop := a.min ≤ b.min

instance : DecidableRel thresholdLE :=
  fun a b => inferInstanceAs (Decidable (a.min ≤ b.min))

instance : IsTotal Threshold thresholdLE := ⟨fun a b => le_total a.min b.min⟩

instance : IsTrans Threshold thresholdLE := ⟨fun _ _ _ h h' => le_trans h h'⟩

/-- The template object passed to the Thresholds constructor. Each property
is listed in JavaScript object iteration order as `(parseInt of its key,
its color)`, the key's parse result being `none` when it is `NaN` (e.g.
the key "unreachable"). `unreachable` holds the value of the literal
property "unreachable", when present. -/
structure ThresholdsTemplate where
  entries : List (Option ℤ × String)
  unreachable : Option String

/-- A constructed Thresholds instance: its internal sorted threshold
list. -/
structure Thresholds where
  thresholds : List Threshold
deriving DecidableEq

/-- The Thresholds constructor: every template property whose key parses
as a non-negative integer becomes a threshold, one `⊤` threshold is
appended for unreachable servers (colored `template.unreachable || 'black'`),
and the list is sorted by increasing `min`. -/
def Thresholds.ofTemplate (template : ThresholdsTemplate) : Thresholds :=
  let unreachable : String :=
    match template.unreachable with
    | some c => if c = "" then "black" else c
    | none => "black"
  let numeric : List Threshold :=
    template.entries.filterMap (fun e =>
      match e.1 with
      | some threshold =>
          if threshold < 0 then none
          else some { min := ((threshold : ℚ) : WithTop ℚ), color := e.2 }
      | none => none)
  ⟨List.insertionSort thresholdLE (numeric ++ [{ min := ⊤, color := unreachable }])⟩

/-- The scan of `getNiceness`: `for (var i = thresholds.length - 1; i > 0; i--)
if (predicted >= thresholds[i].min) return i; return 0`. -/
def scanThresholds (thresholds : List Threshold) (predicted : ℚ) : ℕ → ℕ
  | 0 => 0
  | i + 1 =>
      if (thresholds.getD (i + 1) { min := ⊤, color := "" }).min ≤ ((predicted : ℚ) : WithTop ℚ)
      then i + 1
      else scanThresholds thresholds predicted i

/-- `getNiceness` of types/Server.js: absent statistics give the index of
the last (unreachable) threshold; otherwise the scan over
`predicted = median + medianAbsoluteDeviation`. -/
def Thresholds.getNiceness (T : Thresholds) (stats : Option Statistics) : ℕ :=
  match stats with
  | none => T.thresholds.length - 1
  | some s =>
      scanThresholds T.thresholds (s.median + s.medianAbsoluteDeviation)
        (T.thresholds.length - 1)

/-- `getColor` of types/Server.js: the color of the threshold at the
niceness index clamped into `[0, thresholds.length - 1]`. -/
def Thresholds.getColor (T : Thresholds) (niceness : ℤ) : String :=
  (T.thresholds.getD (max 0 (min niceness ((T.thresholds.length : ℤ) - 1))).toNat
    { min := ⊤, color := "" }).color

/-- `Thresholds.DEFAULT_THRESHOLDS` of types/Server.js: cut-points at 0,
60, 130 and 220 ms plus the terminal "unreachable" entry. -/
def DEFAULT_THRESHOLDS : Thresholds :=
  Thresholds.ofTemplate
    { entries :=
        [(some 0, "rgba(64,  192, 0, 0.5)"),
         (some 60, "rgba(192, 192, 0, 0.5)"),
         (some 130, "rgba(192, 128, 0, 0.5)"),
         (some 220, "rgba(192, 0,   0, 0.5)"),
         (none, "black")]
      unreachable := some "black" }

/-! ## JavaScript object maps -/

/-- Property lookup on a JavaScript object modelled as an association
list: the value of the first entry with the given key. -/
def lookupKey : List (String × α) → String → Option α
  | [], _ => none
  | e :: rest, k => if e.1 = k then some e.2 else lookupKey rest k

/-- Property assignment `m[k] = v` on a JavaScript object: replace the
entry in place when the key exists, append a new entry otherwise. -/
def objSet (m : List (String × α)) (k : String) (v : α) : List (String × α) :=
  if (lookupKey m k).isSome then m.map (fun p => if p.1 = k then (k, v) else p)
  else m ++ [(k, v)]

/-! ## Server and Result (types/Server.js, the Result service) -/

/-- A Guacamole server as loaded from configuration. -/
structure Server where
  url : String
  country : Option String
deriving DecidableEq

/-- One connection test result (the Result revision carrying a `color`).
`none` in a field models a JavaScript `undefined` property. -/
structure Result where
  name : Option String
  server : Option Server
  niceness : Option ℕ
  color : Option String
  roundTripStatistics : Option Statistics
  complete : Bool
deriving DecidableEq

/-- `Result.NICENESS_BINS` of the Result service used by
connectionTestingService.js. -/
def Result.NICENESS_BINS : ℕ := 4

/-- `Result.WORST_TOLERABLE_LATENCY` of that Result service, in
milliseconds. -/
def Result.WORST_TOLERABLE_LATENCY : ℚ := 220

/-- `Result.pack`: the URL-to-raw-samples map built from a completed
result set, keeping only results that carry statistics. The deflate/
base64 encoding applied to this map by the source (pako and btoa, both
external libraries) is modelled as transparent. -/
def Result.pack (results : List Result) : List (String × List ℚ) :=
  results.foldl
    (fun samplesByUrl result =>
      match result.roundTripStatistics, result.server with
      | some stats, some server => objSet samplesByUrl server.url stats.samples
      | _, _ => samplesByUrl)
    []

/-- The entry `Result.pack` emits for one result: its server URL paired
with its raw sample array, or nothing when it has no statistics. (A
result with statistics but no server is outside the JavaScript function's
domain: accessing `result.server.url` would throw.) -/
def packEntry (result : Result) : Option (String × List ℚ) :=
  match result.roundTripStatistics, result.server with
  | some stats, some server => some (server.url, stats.samples)
  | _, _ => none

/-- The result `Result.unpack` reconstitutes for one packed sample array:
fresh statistics, re-classified with the current thresholds. -/
def unpackResult (thresholds : Thresholds) (samples : List ℚ) : Result :=
  let statistics := Statistics.ofSamples samples
  let niceness := thresholds.getNiceness (some statistics)
  { name := none
    server := none
    niceness := some niceness
    color := some (thresholds.getColor (niceness : ℤ))
    roundTripStatistics := some statistics
    complete := true }

/-- The first pass of `Result.unpack`: the URL-to-result map rebuilt from
the packed URL-to-samples map. -/
def unpackResultsByUrl (thresholds : Thresholds) (packed : List (String × List ℚ)) :
    List (String × Result) :=
  packed.foldl (fun resultsByUrl e => objSet resultsByUrl e.1 (unpackResult thresholds e.2)) []

/-- The result `Result.unpack` emits for a live server with no packed
entry: assumed unreachable, classified by `getNiceness(null)`. -/
def unreachableResult (thresholds : Thresholds) : Result :=
  let niceness := thresholds.getNiceness none
  { name := none
    server := none
    niceness := some niceness
    color := some (thresholds.getColor (niceness : ℤ))
    roundTripStatistics := none
    complete := true }

/-- One iteration of the second pass of `Result.unpack`, for one live
server entry `(name, server)`. The source assigns `result.name = name;
result.server = server` in place on the object fetched from
`resultsByUrl[server.url]` and pushes that shared object, so two live
servers with the same packed URL push the same object and the later
assignment is visible at the earlier index. The state is the
`resultsByUrl` object store (each URL key holds one object; the
assignment is modelled by `objSet` on that store) together with the
output array, whose elements are references into the store
(`Sum.inl url`) or, for a server with no packed entry, the freshly
built unreachable result pushed immediately (`Sum.inr`, never shared). -/
def pushResultForServer (thresholds : Thresholds)
    (state : List (String × Result) × List (String ⊕ Result))
    (e : String × Server) : List (String × Result) × List (String ⊕ Result) :=
  match lookupKey state.1 e.2.url with
  | some result =>
      (objSet state.1 e.2.url { result with name := some e.1, server := some e.2 },
        state.2 ++ [Sum.inl e.2.url])
  | none =>
      (state.1,
        state.2 ++ [Sum.inr
          { unreachableResult thresholds with name := some e.1, server := some e.2 }])

/-- Dereference one pushed entry of the output array against the final
object store: a reference reads the shared object as mutated by the
whole pass, a fresh object is itself. The default is never reached —
references are pushed only for URLs present in the store, and no pass-2
step removes a key. -/
def derefResult (resultsByUrl : List (String × Result)) : String ⊕ Result → Result
  | Sum.inl url =>
      (lookupKey resultsByUrl url).getD
        { name := none, server := none, niceness := none, color := none,
          roundTripStatistics := none, complete := false }
  | Sum.inr result => result

/-- `Result.unpack`: rebuild per-URL results from the packed map, then
walk the live server map in iteration order, reconciling against it;
the returned array holds the objects as observed after the loop (the
per-URL objects being shared between the store and every reference
pushed for them). -/
def Result.unpack (servers : List (String × Server)) (thresholds : Thresholds)
    (packed : List (String × List ℚ)) : List Result :=
  let resultsByUrl := unpackResultsByUrl thresholds packed
  let final := servers.foldl (pushResultForServer thresholds) (resultsByUrl, [])
  final.2.map (derefResult final.1)

/-! ## The adaptive sampler (statisticalMeasurementService.js) -/

/-- `MAX_SAMPLING_TIME`: the maximum time to spend collecting samples, in
milliseconds. -/
def MAX_SAMPLING_TIME : ℚ := 3000

/-- `MAX_SAMPLE_TIME`: the per-probe timeout passed to the timing
service, in milliseconds (enforced by the external HTTP layer). -/
def MAX_SAMPLE_TIME : ℚ := 5000

/-- `DESIRED_SAMPLE_SIZE`: the minimum number of samples before the set
may be considered accurate. -/
def DESIRED_SAMPLE_SIZE : ℕ := 5

/-- `DESIRED_DEVIATION`: the desired mean absolute deviation as a
fraction of the median. -/
def DESIRED_DEVIATION : ℚ := 0.25

/-- `MINIMUM_DEVIATION`: the absolute mean-absolute-deviation floor, in
milliseconds, avoiding excess sampling for very responsive servers. -/
def MINIMUM_DEVIATION : ℚ := 4

/-- `isAccurate`: a sample set is accurate when it has at least
`DESIRED_SAMPLE_SIZE` samples and its mean absolute deviation is within
the larger of `MINIMUM_DEVIATION` and `|median * DESIRED_DEVIATION|`. -/
def isAccurate (stats : Statistics) : Bool :=
  if stats.samples.length < DESIRED_SAMPLE_SIZE then false
  else
    let desiredDeviation := max MINIMUM_DEVIATION |stats.median * DESIRED_DEVIATION|
    decide (stats.meanAbsoluteDeviation ≤ desiredDeviation)

/-- The outcome the network oracle supplies for one probe issued by
`gatherSamples`: a failure, or an echoed client timestamp together with
the current time when the response arrives. -/
inductive ProbeEvent
  | failure
  | success (clientTimestamp : ℚ) (currentTime : ℚ)
deriving DecidableEq

/-- How one sampling run ends: rejected on the first probe failure,
resolved with the final statistics, or (a model artifact) the finite
oracle ran out of events before the loop stopped. -/
inductive SamplerOutcome
  | rejected
  | resolved (stats : Statistics)
  | exhausted (samples : List ℚ)
deriving DecidableEq

/-- `gatherSamples`, run against a finite oracle of probe events: each
iteration issues one probe; on failure the deferred is rejected at once;
on success the round trip time `currentTime - clientTimestamp` is
appended, statistics are recomputed, and the loop resolves when the
sampling budget is exhausted or the set is accurate, otherwise recurses.
Returns the outcome and the number of probes issued. -/
def gatherSamples : List ProbeEvent → List ℚ → ℚ → SamplerOutcome × ℕ
  | [], samples, _ => (SamplerOutcome.exhausted samples, 0)
  | ProbeEvent.failure :: _, _, _ => (SamplerOutcome.rejected, 1)
  | ProbeEvent.success clientTimestamp currentTime :: rest, samples, startTime =>
      let samples' := samples ++ [currentTime - clientTimestamp]
      let stats := Statistics.ofSamples samples'
      if decide (MAX_SAMPLING_TIME ≤ currentTime - startTime) || isAccurate stats then
        (SamplerOutcome.resolved stats, 1)
      else
        let p := gatherSamples rest samples' startTime
        (p.1, p.2 + 1)

/-! ## The scheduler (connectionTestingService.js) -/

/-- `DEFAULT_CONCURRENCY`: the number of tests run in parallel when no
override is given. -/
def DEFAULT_CONCURRENCY : ℤ := 4

/-- The concurrency actually used by `startTest`:
`concurrency || DEFAULT_CONCURRENCY`, i.e. the default exactly when the
integral argument is the falsy number 0. -/
def effectiveConcurrency (concurrency : ℤ) : ℤ :=
  if concurrency = 0 then DEFAULT_CONCURRENCY else concurrency

/-- `getDomain`: the regex `/^[^\x2f]*\x2f\x2f([^\x2f]*)/` applied to a URL —
skip to the first slash, require a double slash there, and capture up to
the next slash; `none` when the URL does not match. -/
def getDomain (url : String) : Option String :=
  match url.data.dropWhile (fun c => c ≠ '/') with
  | '/' :: '/' :: tail => some (String.mk (tail.takeWhile (fun c => c ≠ '/')))
  | _ => none

/-- The scheduler state of one run: the queue of destinations whose
results are not yet started (in arrival order), the set of destinations
with an active test (`activeTests`, in key insertion order), and the
number of iterations the current `spawnTests` loop still has to run. -/
structure SchedulerState where
  queue : List (Option String)
  active : List (Option String)
  budget : ℕ
deriving DecidableEq

/-- One call of `testServers`: pull the next result from the queue; if
its destination already has an active test put it back, otherwise mark
the destination active and start its sampler. -/
def testServersCall (queue active : List (Option String)) :
    List (Option String) × List (Option String) :=
  match queue with
  | [] => ([], active)
  | d :: rest => if d ∈ active then (d :: rest, active) else (rest, active ++ [d])

/-- One iteration of the `spawnTests` loop: a `testServers` call, using
up one iteration of the loop's budget. -/
def spawnStep (s : SchedulerState) : SchedulerState :=
  { queue := (testServersCall s.queue s.active).1
    active := (testServersCall s.queue s.active).2
    budget := s.budget - 1 }

/-- A sampler settling for destination `d`: `delete activeTests[domain]`
followed by the `spawnTests(results, concurrency)` call, whose loop count
is `concurrency` minus the number of active tests. -/
def completeStep (concurrency : ℤ) (s : SchedulerState) (d : Option String) : SchedulerState :=
  { queue := s.queue
    active := s.active.erase d
    budget := (concurrency - (s.active.erase d).length).toNat }

/-- The instants of one test run started over the destinations `dests`
with concurrency `c`: the initial instant right after `startTest` queued
every server and `spawnTests` computed its loop count, every instant
inside a spawn loop, and every instant after a sampler settles (sampler
callbacks only run between spawn loops, the event loop being
single-threaded, hence `s.budget = 0` there). -/
inductive Reachable (c : ℤ) (dests : List (Option String)) : SchedulerState → Prop
  | init : Reachable c dests { queue := dests, active := [], budget := c.toNat }
  | spawn {s} : Reachable c dests s → 0 < s.budget → Reachable c dests (spawnStep s)
  | complete {s} {d} : Reachable c dests s → s.budget = 0 → d ∈ s.active →
      Reachable c dests (completeStep c s d)

/-- The settlement handler of `testServers` (the then/catch/finally
chain): on success the result's niceness comes from `Result.getNiceness`
of the Result service — a base-2-logarithm formula over floating point
numbers, abstracted here as the parameter `classify` — and the statistics
are stored; on failure the niceness is set to `Result.NICENESS_BINS`; in
both cases the finally branch marks the result complete. (Freeing the
destination and re-running `spawnTests` is `Reachable.complete`.) -/
def handleSettled (classify : Statistics → ℕ) (result : Result)
    (outcome : Option Statistics) : Result :=
  match outcome with
  | some stats =>
      { result with
          niceness := some (classify stats)
          roundTripStatistics := some stats
          complete := true }
  | none =>
      { result with niceness := some Result.NICENESS_BINS, complete := true }

/-! ## The Statistics constructor over a mutable array store (for the
frame property of `samples.slice().sort(...)`) -/

/-- `new Statistics(samples)` run against an explicit store of JavaScript
array objects (`heap`, one array value per reference, `a` the reference
passed in): `slice()` allocates a copy at a fresh reference, `sort()`
mutates that copy in place, and every derived value is computed from the
copy. Returns the store after construction and the constructed record. -/
def statisticsNew (heap : List (List ℚ)) (a : ℕ) : List (List ℚ) × Statistics :=
  let copyAddr := heap.length
  let heap1 := heap ++ [heap.getD a []]
  let heap2 := heap1.set copyAddr (sortNumeric (heap1.getD copyAddr []))
  let sorted := heap2.getD copyAddr []
  let median := getMedian sorted
  let deviations := sortNumeric (getAbsoluteDeviations sorted median)
  (heap2,
    { samples := sorted
      median := median
      meanAbsoluteDeviation := getMean deviations
      medianAbsoluteDeviation := getMedian deviations })

theorem heap_append_getD_last (h : List (List ℚ)) (x : List ℚ) :
    (h ++ [x]).getD h.length [] = x := by
  induction h with
  | nil => rfl
  | cons a h ih => simp [ih]

theorem heap_append_set_last (h : List (List ℚ)) (x y : List ℚ) :
    (h ++ [x]).set h.length y = h ++ [y] := by
  induction h with
  | nil => rfl
  | cons a h ih => simp [ih]

theorem heap_append_getD_lt (h : List (List ℚ)) (x : List ℚ) (b : ℕ) (hb : b < h.length) :
    (h ++ [x]).getD b [] = h.getD b [] := by
  induction h generalizing b with
  | nil => simp at hb
  | cons a h ih =>
      cases b with
      | zero => rfl
      | succ b => simpa using ih b (by simpa using hb)

/-- C10: constructing a Statistics instance never modifies the sample
array passed to the constructor — the constructor sorts a `slice()` copy
and computes every derived value from that copy, so after construction
every pre-existing array of the store (the caller's array included) has
its original contents and order, and the constructed record agrees with
the pure constructor on the original contents. -/
theorem statistics_constructor_preserves_input :
    ∀ (heap : List (List ℚ)) (a : ℕ), a < heap.length →
    ((∀ b, b < heap.length → (statisticsNew heap a).1.getD b [] = heap.getD b [])
      ∧ (statisticsNew heap a).2 = Statistics.ofSamples (heap.getD a [])) := by
  intro heap a _
  have hget : (heap ++ [heap.getD a []]).getD heap.length [] = heap.getD a [] :=
    heap_append_getD_last heap _
  constructor
  · intro b hb
    simp only [statisticsNew]
    rw [hget, heap_append_set_last]
    exact heap_append_getD_lt heap _ b hb
  · simp only [statisticsNew]
    rw [hget, heap_append_set_last, heap_append_getD_last]
    simp [Statistics.ofSamples]

theorem statistics_constructor_preserves_input_witness :
    ((∀ b, b < ([[(3 : ℚ), 1, 2]] : List (List ℚ)).length →
        (statisticsNew [[(3 : ℚ), 1, 2]] 0).1.getD b []
          = ([[(3 : ℚ), 1, 2]] : List (List ℚ)).getD b [])
      ∧ (statisticsNew [[(3 : ℚ), 1, 2]] 0).2
          = Statistics.ofSamples (([[(3 : ℚ), 1, 2]] : List (List ℚ)).getD 0 [])) :=
  statistics_constructor_preserves_input [[(3 : ℚ), 1, 2]] 0 (by decide)

/-- C8: a constructed Statistics satisfies — samples are the input sorted
ascending (a sorted permutation); the median is the order-statistic
median of the sorted samples, averaging the two central values on even
length; the mean absolute deviation is the arithmetic mean of
`|sample - median|` over the original samples; the median absolute
deviation is the median of those absolute deviations; and the empty
input yields all-zero derived values. -/
theorem statistics_construction_spec :
    ∀ (s : List ℚ),
    (List.Perm (Statistics.ofSamples s).samples s
      ∧ (Statistics.ofSamples s).samples.Sorted (· ≤ ·))
    ∧ ((Statistics.ofSamples s).samples.length % 2 = 1 →
        (Statistics.ofSamples s).median
          = (Statistics.ofSamples s).samples.getD
              (((Statistics.ofSamples s).samples.length - 1) / 2) 0)
    ∧ (s ≠ [] → (Statistics.ofSamples s).samples.length % 2 = 0 →
        (Statistics.ofSamples s).median
          = ((Statistics.ofSamples s).samples.getD
                ((Statistics.ofSamples s).samples.length / 2 - 1) 0
              + (Statistics.ofSamples s).samples.getD
                  ((Statistics.ofSamples s).samples.length / 2) 0) / 2)
    ∧ (s ≠ [] → (Statistics.ofSamples s).meanAbsoluteDeviation
        = (s.map (fun x => |x - (Statistics.ofSamples s).median|)).sum / (s.length : ℚ))
    ∧ ((Statistics.ofSamples s).medianAbsoluteDeviation
        = getMedian (sortNumeric (s.map (fun x => |x - (Statistics.ofSamples s).median|))))
    ∧ (s = [] → (Statistics.ofSamples s).median = 0
        ∧ (Statistics.ofSamples s).meanAbsoluteDeviation = 0
        ∧ (Statistics.ofSamples s).medianAbsoluteDeviation = 0) := by
  intro s
  refine ⟨⟨?_, ?_⟩, ?_, ?_, ?_, ?_, ?_⟩
  · simpa using sortNumeric_perm s
  · simpa using sortNumeric_sorted s
  · intro hodd
    simp only [Statistics.ofSamples_samples, Statistics.ofSamples_median] at *
    have h0 : (sortNumeric s).length ≠ 0 := by
      intro h
      rw [h] at hodd
      simp at hodd
    rw [getMedian, if_neg h0, if_pos hodd]
  · intro hne heven
    simp only [Statistics.ofSamples_samples, Statistics.ofSamples_median] at *
    have h0 : (sortNumeric s).length ≠ 0 := by
      simpa [List.length_eq_zero] using hne
    have h1 : ¬ (sortNumeric s).length % 2 = 1 := by omega
    rw [getMedian, if_neg h0, if_neg h1]
  · intro hne
    simp only [Statistics.ofSamples_samples, Statistics.ofSamples_median,
      Statistics.ofSamples_mad]
    have hlen : (sortNumeric (getAbsoluteDeviations (sortNumeric s)
        (getMedian (sortNumeric s)))).length = s.length := by
      simp [getAbsoluteDeviations]
    have h0 : s.length ≠ 0 := by simpa [List.length_eq_zero] using hne
    rw [getMean, if_neg (by rw [hlen]; exact h0), hlen]
    congr 1
    exact ((sortNumeric_perm _).trans ((sortNumeric_perm s).map _)).sum_eq
  · simp only [Statistics.ofSamples_samples, Statistics.ofSamples_median,
      Statistics.ofSamples_mdad]
    congr 1
    exact sortNumeric_eq_of_perm (by simpa [getAbsoluteDeviations] using (sortNumeric_perm s).map _)
  · intro h
    subst h
    exact ⟨rfl, rfl, rfl⟩

theorem gatherSamples_resolved_one_le {events : List ProbeEvent} {samples : List ℚ}
    {startTime : ℚ} {stats : Statistics} {n : ℕ}
    (h : gatherSamples events samples startTime = (SamplerOutcome.resolved stats, n)) :
    1 ≤ n := by
  cases events with
  | nil => simp [gatherSamples] at h
  | cons e rest =>
      cases e with
      | failure => simp [gatherSamples] at h
      | success clientTimestamp currentTime =>
          rw [gatherSamples] at h
          by_cases hc : (decide (MAX_SAMPLING_TIME ≤ currentTime - startTime)
              || isAccurate (Statistics.ofSamples (samples ++ [currentTime - clientTimestamp]))) = true
          · rw [if_pos hc] at h
            have := congrArg Prod.snd h
            simp at this
            omega
          · rw [if_neg hc] at h
            have := congrArg Prod.snd h
            simp at this
            omega

theorem isAccurate_eq_true_iff (stats : Statistics) (h : 0 ≤ stats.median) :
    isAccurate stats = true
      ↔ (DESIRED_SAMPLE_SIZE ≤ stats.samples.length
          ∧ stats.meanAbsoluteDeviation ≤ max MINIMUM_DEVIATION (stats.median * DESIRED_DEVIATION)) := by
  have habs : |stats.median * DESIRED_DEVIATION| = stats.median * DESIRED_DEVIATION :=
    abs_of_nonneg (mul_nonneg h (by norm_num [DESIRED_DEVIATION]))
  rw [isAccurate]
  by_cases hlen : stats.samples.length < DESIRED_SAMPLE_SIZE
  · rw [if_pos hlen]
    simp
    omega
  · rw [if_neg hlen]
    simp [habs]
    omega

/-- C4: after a successful probe, the sampler stops and resolves with the
current Statistics exactly when the elapsed time since the sampling start
has reached `MAX_SAMPLING_TIME`, or the sample set is accurate (at least
`DESIRED_SAMPLE_SIZE` samples and mean absolute deviation at most the
larger of `MINIMUM_DEVIATION` and `DESIRED_DEVIATION` of the median);
otherwise it issues another probe. -/
theorem sampler_stopping_rule :
    ∀ (rest : List ProbeEvent) (samples : List ℚ) (startTime clientTimestamp currentTime : ℚ),
    0 ≤ (Statistics.ofSamples (samples ++ [currentTime - clientTimestamp])).median →
    ((gatherSamples (ProbeEvent.success clientTimestamp currentTime :: rest) samples startTime
        = (SamplerOutcome.resolved
            (Statistics.ofSamples (samples ++ [currentTime - clientTimestamp])), 1))
      ↔ (MAX_SAMPLING_TIME ≤ currentTime - startTime
          ∨ (DESIRED_SAMPLE_SIZE ≤ (samples ++ [currentTime - clientTimestamp]).length
              ∧ (Statistics.ofSamples
                    (samples ++ [currentTime - clientTimestamp])).meanAbsoluteDeviation
                  ≤ max MINIMUM_DEVIATION
                      ((Statistics.ofSamples (samples ++ [currentTime - clientTimestamp])).median
                        * DESIRED_DEVIATION))))
    ∧ (¬ (MAX_SAMPLING_TIME ≤ currentTime - startTime
          ∨ (DESIRED_SAMPLE_SIZE ≤ (samples ++ [currentTime - clientTimestamp]).length
              ∧ (Statistics.ofSamples
                    (samples ++ [currentTime - clientTimestamp])).meanAbsoluteDeviation
                  ≤ max MINIMUM_DEVIATION
                      ((Statistics.ofSamples (samples ++ [currentTime - clientTimestamp])).median
                        * DESIRED_DEVIATION))) →
        gatherSamples (ProbeEvent.success clientTimestamp currentTime :: rest) samples startTime
          = ((gatherSamples rest (samples ++ [currentTime - clientTimestamp]) startTime).1,
              (gatherSamples rest (samples ++ [currentTime - clientTimestamp]) startTime).2 + 1)) := by
  intro rest samples startTime clientTimestamp currentTime hmed
  have hlen : (Statistics.ofSamples (samples ++ [currentTime - clientTimestamp])).samples.length
      = (samples ++ [currentTime - clientTimestamp]).length := by
    simp
  have hBool : ((decide (MAX_SAMPLING_TIME ≤ currentTime - startTime)
        || isAccurate (Statistics.ofSamples (samples ++ [currentTime - clientTimestamp]))) = true)
      ↔ (MAX_SAMPLING_TIME ≤ currentTime - startTime
          ∨ (DESIRED_SAMPLE_SIZE ≤ (samples ++ [currentTime - clientTimestamp]).length
              ∧ (Statistics.ofSamples
                    (samples ++ [currentTime - clientTimestamp])).meanAbsoluteDeviation
                  ≤ max MINIMUM_DEVIATION
                      ((Statistics.ofSamples (samples ++ [currentTime - clientTimestamp])).median
                        * DESIRED_DEVIATION))) := by
    rw [Bool.or_eq_true, decide_eq_true_eq,
      isAccurate_eq_true_iff _ hmed, hlen]
  constructor
  · constructor
    · intro heq
      by_contra hnc
      have hb : ¬ ((decide (MAX_SAMPLING_TIME ≤ currentTime - startTime)
          || isAccurate (Statistics.ofSamples (samples ++ [currentTime - clientTimestamp])))
            = true) :=
        fun hb => hnc (hBool.mp hb)
      rw [gatherSamples, if_neg hb] at heq
      have hfst := congrArg Prod.fst heq
      have hsnd := congrArg Prod.snd heq
      simp at hfst hsnd
      have : gatherSamples rest (samples ++ [currentTime - clientTimestamp]) startTime
          = (SamplerOutcome.resolved
              (Statistics.ofSamples (samples ++ [currentTime - clientTimestamp])), 0) := by
        rw [show (0 : ℕ) = (gatherSamples rest (samples ++ [currentTime - clientTimestamp])
            startTime).2 from by omega, ← hfst]
      exact absurd (gatherSamples_resolved_one_le this) (by omega)
    · intro hcond
      rw [gatherSamples, if_pos (hBool.mpr hcond)]
  · intro hnc
    have hb : ¬ ((decide (MAX_SAMPLING_TIME ≤ currentTime - startTime)
        || isAccurate (Statistics.ofSamples (samples ++ [currentTime - clientTimestamp])))
          = true) :=
      fun hb => hnc (hBool.mp hb)
    rw [gatherSamples, if_neg hb]

theorem sampler_stopping_rule_witness :
    ((gatherSamples (ProbeEvent.success 0 3000 :: []) [] 0
        = (SamplerOutcome.resolved (Statistics.ofSamples ([] ++ [(3000 : ℚ) - 0])), 1))
      ↔ (MAX_SAMPLING_TIME ≤ (3000 : ℚ) - 0
          ∨ (DESIRED_SAMPLE_SIZE ≤ (([] : List ℚ) ++ [(3000 : ℚ) - 0]).length
              ∧ (Statistics.ofSamples ([] ++ [(3000 : ℚ) - 0])).meanAbsoluteDeviation
                  ≤ max MINIMUM_DEVIATION
                      ((Statistics.ofSamples ([] ++ [(3000 : ℚ) - 0])).median
                        * DESIRED_DEVIATION))))
    ∧ (¬ (MAX_SAMPLING_TIME ≤ (3000 : ℚ) - 0
          ∨ (DESIRED_SAMPLE_SIZE ≤ (([] : List ℚ) ++ [(3000 : ℚ) - 0]).length
              ∧ (Statistics.ofSamples ([] ++ [(3000 : ℚ) - 0])).meanAbsoluteDeviation
                  ≤ max MINIMUM_DEVIATION
                      ((Statistics.ofSamples ([] ++ [(3000 : ℚ) - 0])).median
                        * DESIRED_DEVIATION))) →
        gatherSamples (ProbeEvent.success 0 3000 :: []) [] 0
          = ((gatherSamples [] ([] ++ [(3000 : ℚ) - 0]) 0).1,
              (gatherSamples [] ([] ++ [(3000 : ℚ) - 0]) 0).2 + 1)) :=
  sampler_stopping_rule [] [] 0 0 3000
    (by simp [sortNumeric, List.insertionSort, List.orderedInsert, getMedian])

theorem reachable_invariant {c : ℤ} {dests : List (Option String)} {s : SchedulerState}
    (h : Reachable c dests s) :
    s.active.Nodup ∧ (∀ x ∈ s.active, x ∈ dests) ∧ (∀ x ∈ s.queue, x ∈ dests)
      ∧ (s.active.length : ℤ) + s.budget ≤ max c 0 := by
  induction h with
  | init =>
      refine ⟨List.nodup_nil, by simp, fun x hx => hx, ?_⟩
      simp
  | @spawn s h hb ih =>
      obtain ⟨ih1, ih2, ih3, ih4⟩ := ih
      cases hq : s.queue with
      | nil =>
          refine ⟨by simpa [spawnStep, testServersCall, hq] using ih1,
            by simpa [spawnStep, testServersCall, hq] using ih2,
            by simp [spawnStep, testServersCall, hq], ?_⟩
          simp only [spawnStep, testServersCall, hq]
          omega
      | cons d rest =>
          by_cases hd : d ∈ s.active
          · refine ⟨by simpa [spawnStep, testServersCall, hq, hd] using ih1,
              by simpa [spawnStep, testServersCall, hq, hd] using ih2,
              ?_, ?_⟩
            · simp only [spawnStep, testServersCall, hq, if_pos hd]
              rw [← hq]
              exact ih3
            · simp only [spawnStep, testServersCall, hq, if_pos hd]
              omega
          · have hdmem : d ∈ dests := ih3 d (by rw [hq]; exact List.mem_cons_self d rest)
            refine ⟨?_, ?_, ?_, ?_⟩
            · simp only [spawnStep, testServersCall, hq, if_neg hd]
              exact List.Nodup.append ih1 (List.nodup_singleton d)
                (List.disjoint_singleton.mpr hd)
            · intro x hx
              simp only [spawnStep, testServersCall, hq, if_neg hd, List.mem_append,
                List.mem_singleton] at hx
              rcases hx with hx | hx
              · exact ih2 x hx
              · exact hx ▸ hdmem
            · intro x hx
              simp only [spawnStep, testServersCall, hq, if_neg hd] at hx
              exact ih3 x (by rw [hq]; exact List.mem_cons_of_mem d hx)
            · simp only [spawnStep, testServersCall, hq, if_neg hd, List.length_append,
                List.length_singleton]
              push_cast
              omega
  | @complete s d h hb hd ih =>
      obtain ⟨ih1, ih2, ih3, ih4⟩ := ih
      have hsub : List.Sublist (s.active.erase d) s.active := List.erase_sublist d s.active
      refine ⟨List.Nodup.sublist hsub ih1, fun x hx => ih2 x (hsub.subset hx), ih3, ?_⟩
      have hlen : (s.active.erase d).length ≤ s.active.length := hsub.length_le
      simp only [completeStep]
      omega

/-- C2: at every reachable instant of a test run started with
concurrency `c` over a server list, the active destination set contains
no destination twice, and its size never exceeds the minimum of `c` and
the number of distinct destinations among the servers. -/
theorem scheduler_active_destinations :
    ∀ (c : ℤ) (servers : List (String × Server)) (s : SchedulerState),
    0 ≤ c →
    Reachable c (servers.map (fun e => getDomain e.2.url)) s →
    s.active.Nodup
      ∧ s.active.length
          ≤ min c.toNat ((servers.map (fun e => getDomain e.2.url)).dedup.length) := by
  intro c servers s hc h
  obtain ⟨h1, h2, -, h4⟩ := reachable_invariant h
  rw [max_eq_left hc] at h4
  refine ⟨h1, le_min (by omega) ?_⟩
  have hsub : s.active ⊆ (servers.map (fun e => getDomain e.2.url)).dedup :=
    fun x hx => List.mem_dedup.mpr (h2 x hx)
  exact (List.subperm_of_subset h1 hsub).length_le

theorem scheduler_active_destinations_witness :
    (SchedulerState.mk ([(("A" : String), Server.mk "https://a.example/" none)].map
        (fun e => getDomain e.2.url)) [] (1 : ℤ).toNat).active.Nodup
      ∧ (SchedulerState.mk ([(("A" : String), Server.mk "https://a.example/" none)].map
            (fun e => getDomain e.2.url)) [] (1 : ℤ).toNat).active.length
          ≤ min (1 : ℤ).toNat
              (([(("A" : String), Server.mk "https://a.example/" none)].map
                  (fun e => getDomain e.2.url)).dedup.length) :=
  scheduler_active_destinations 1 [("A", Server.mk "https://a.example/" none)] _
    (by norm_num) Reachable.init

/-- C6 (the defect): `startTest` guards the concurrency override with
`concurrency || DEFAULT_CONCURRENCY`, which only replaces the falsy value
0. A negative concurrency is passed through, `spawnTests` computes a
negative spawn count, its loop never runs, and no completion can ever
occur: every reachable state of a run started with concurrency -1 over
one server still has the server queued, no active test and no spawn
budget — the run is stalled — whereas with the argument 0 (replaced by
the default concurrency 4) a state with the server's test active is
reachable. -/
theorem negative_concurrency_stalls :
    (∀ s, Reachable (effectiveConcurrency (-1)) [getDomain "https://a.example/"] s →
        s.queue = [getDomain "https://a.example/"] ∧ s.active = [] ∧ s.budget = 0)
    ∧ (∃ s, Reachable (effectiveConcurrency 0) [getDomain "https://a.example/"] s
        ∧ s.active = [getDomain "https://a.example/"]) := by
  constructor
  · intro s h
    induction h with
    | init => refine ⟨rfl, rfl, by norm_num [effectiveConcurrency]⟩
    | @spawn s h hb ih => omega
    | @complete s d h hb hd ih =>
        rw [ih.2.1] at hd
        simp at hd
  · refine ⟨spawnStep (SchedulerState.mk [getDomain "https://a.example/"] []
        (effectiveConcurrency 0).toNat), ?_, ?_⟩
    · exact Reachable.spawn Reachable.init
        (by norm_num [effectiveConcurrency, DEFAULT_CONCURRENCY])
    · simp [spawnStep, testServersCall]

/-- C9: a failed probe rejects the sampler at once — exactly one probe
was issued and no further probe follows for that server; the settlement
handler then marks the result complete with the terminal unreachable
niceness `Result.NICENESS_BINS`; and the run continues: the destination
is freed, the follow-up state (after the respawn) is reachable, and the
next queued destination not blocked by an active test starts. -/
theorem probe_failure_fatal :
    (∀ (rest : List ProbeEvent) (samples : List ℚ) (startTime : ℚ),
        gatherSamples (ProbeEvent.failure :: rest) samples startTime
          = (SamplerOutcome.rejected, 1))
    ∧ (∀ (classify : Statistics → ℕ) (result : Result),
        handleSettled classify result none
          = { result with niceness := some Result.NICENESS_BINS, complete := true })
    ∧ (∀ (c : ℤ) (dests : List (Option String)) (s : SchedulerState) (d q : Option String)
          (restQ : List (Option String)),
        Reachable c dests s → s.budget = 0 → d ∈ s.active →
        s.queue = q :: restQ → q ∉ s.active.erase d → (s.active.erase d).length < c.toNat →
        d ∉ s.active.erase d
          ∧ Reachable c dests (spawnStep (completeStep c s d))
          ∧ q ∈ (spawnStep (completeStep c s d)).active) := by
  refine ⟨fun rest samples startTime => rfl, fun classify result => rfl, ?_⟩
  intro c dests s d q restQ h hb hd hq hqa hlen
  obtain ⟨h1, -, -, -⟩ := reachable_invariant h
  refine ⟨?_, ?_, ?_⟩
  · intro hmem
    exact (List.Nodup.mem_erase_iff h1).mp hmem |>.1 rfl
  · exact Reachable.spawn (Reachable.complete h hb hd) (by simp [completeStep]; omega)
  · simp [spawnStep, completeStep, testServersCall, hq, hqa]

theorem ofTemplate_thresholds_sorted (t : ThresholdsTemplate) :
    (Thresholds.ofTemplate t).thresholds.Sorted thresholdLE :=
  List.sorted_insertionSort _ _

theorem ofTemplate_thresholds_ne_nil (t : ThresholdsTemplate) :
    (Thresholds.ofTemplate t).thresholds ≠ [] := by
  intro h
  have hlen := congrArg List.length h
  simp [Thresholds.ofTemplate, List.length_insertionSort] at hlen

theorem ofTemplate_exists_top (t : ThresholdsTemplate) :
    ∃ th ∈ (Thresholds.ofTemplate t).thresholds, th.min = ⊤ := by
  simp only [Thresholds.ofTemplate]
  exact ⟨_, (List.mem_insertionSort _).mpr
    (List.mem_append_right _ (List.mem_singleton_self _)), rfl⟩

theorem sorted_top_mem_getLast :
    ∀ {L : List Threshold}, L.Sorted thresholdLE → (∃ th ∈ L, th.min = ⊤) →
    ∃ th, L.getLast? = some th ∧ th.min = ⊤ := by
  intro L
  induction L with
  | nil => rintro - ⟨th, hth, -⟩; simp at hth
  | cons a L ih =>
      intro hs hmem
      cases L with
      | nil =>
          obtain ⟨th, hth, htop⟩ := hmem
          simp only [List.mem_singleton] at hth
          subst hth
          exact ⟨th, rfl, htop⟩
      | cons b L' =>
          rw [List.getLast?_cons_cons]
          refine ih (List.Sorted.of_cons hs) ?_
          obtain ⟨th, hth, htop⟩ := hmem
          rcases List.mem_cons.mp hth with rfl | hth'
          · have hab : thresholdLE th b :=
              (List.sorted_cons.mp hs).1 b (List.mem_cons_self b L')
            have hbtop : b.min = ⊤ := top_le_iff.mp (htop ▸ hab)
            exact ⟨b, List.mem_cons_self b L', hbtop⟩
          · exact ⟨th, hth', htop⟩

theorem getD_last_of_getLast? :
    ∀ {L : List Threshold} {th : Threshold}, L.getLast? = some th →
    ∀ dflt, L.getD (L.length - 1) dflt = th := by
  intro L
  induction L with
  | nil => intro th h; simp at h
  | cons a L ih =>
      intro th h dflt
      cases L with
      | nil => simpa using h
      | cons b L' =>
          rw [List.getLast?_cons_cons] at h
          simpa using ih h dflt

/-- C3: for a constructed Thresholds, `getNiceness` on absent statistics
returns `count - 1`, the index of the terminal unreachable threshold; on
present statistics it returns the greatest index at most `count - 2`
(i.e. excluding the terminal entry, scanning from slowest to fastest)
whose threshold minimum is at most `median + medianAbsoluteDeviation`,
and 0 when no threshold matches. -/
theorem getNiceness_spec :
    ∀ (t : ThresholdsTemplate) (s : Statistics),
    (Thresholds.ofTemplate t).getNiceness none
        = (Thresholds.ofTemplate t).thresholds.length - 1
    ∧ (Thresholds.ofTemplate t).getNiceness (some s)
        = Nat.findGreatest
            (fun i =>
              ((Thresholds.ofTemplate t).thresholds.getD i { min := ⊤, color := "" }).min
                ≤ (((s.median + s.medianAbsoluteDeviation : ℚ)) : WithTop ℚ))
            ((Thresholds.ofTemplate t).thresholds.length - 2) := by
  intro t s
  refine ⟨rfl, ?_⟩
  set L := (Thresholds.ofTemplate t).thresholds with hL
  have hscan : ∀ n, scanThresholds L (s.median + s.medianAbsoluteDeviation) n
      = Nat.findGreatest
          (fun i => (L.getD i { min := ⊤, color := "" }).min
            ≤ (((s.median + s.medianAbsoluteDeviation : ℚ)) : WithTop ℚ)) n := by
    intro n
    induction n with
    | zero => rfl
    | succ n ih =>
        by_cases hcond : (L.getD (n + 1) { min := ⊤, color := "" }).min
            ≤ (((s.median + s.medianAbsoluteDeviation : ℚ)) : WithTop ℚ)
        · rw [scanThresholds, if_pos hcond, Nat.findGreatest_succ, if_pos hcond]
        · rw [scanThresholds, if_neg hcond, Nat.findGreatest_succ, if_neg hcond, ih]
  show scanThresholds L (s.median + s.medianAbsoluteDeviation) (L.length - 1) = _
  rw [hscan]
  have hne : L ≠ [] := ofTemplate_thresholds_ne_nil t
  obtain ⟨th, hlast, htop⟩ :=
    sorted_top_mem_getLast (ofTemplate_thresholds_sorted t) (ofTemplate_exists_top t)
  rcases hlen : L.length with - | n
  · exact absurd (List.length_eq_zero.mp hlen) hne
  · cases n with
    | zero => norm_num
    | succ m =>
        have hgetD : L.getD (m + 1) { min := ⊤, color := "" } = th := by
          have hd := getD_last_of_getLast? hlast { min := ⊤, color := "" }
          rw [hlen] at hd
          simpa using hd
        have hP : ¬ ((L.getD (m + 1) { min := ⊤, color := "" }).min
            ≤ (((s.median + s.medianAbsoluteDeviation : ℚ)) : WithTop ℚ)) := by
          rw [hgetD, htop]
          simp
        have h21 : m + 1 + 1 - 1 = m + 1 := rfl
        have h22 : m + 1 + 1 - 2 = m := rfl
        rw [h21, h22, Nat.findGreatest_succ, if_neg hP]

/-- C5 (amended): for every template the constructed internal threshold
list is sorted ascending by `min` and always ends in a terminal
`min = ⊤` ("unreachable") entry; it contains a `min = 0` entry whenever
the template itself has an entry whose key parses to 0 (the list is
built from the template's own properties only, so a template without
such a key yields no `min = 0` entry). -/
theorem thresholds_sorted_terminal :
    ∀ (t : ThresholdsTemplate),
    ((Thresholds.ofTemplate t).thresholds.map Threshold.min).Sorted (· ≤ ·)
    ∧ (∃ th, (Thresholds.ofTemplate t).thresholds.getLast? = some th ∧ th.min = ⊤)
    ∧ (∀ color, (some 0, color) ∈ t.entries →
        ∃ th ∈ (Thresholds.ofTemplate t).thresholds, th.min = 0) := by
  intro t
  refine ⟨?_,
    sorted_top_mem_getLast (ofTemplate_thresholds_sorted t) (ofTemplate_exists_top t), ?_⟩
  · exact List.Pairwise.map Threshold.min (fun a b h => h) (ofTemplate_thresholds_sorted t)
  · intro color hmem
    refine ⟨{ min := (((0 : ℤ) : ℚ) : WithTop ℚ), color := color }, ?_, by norm_num⟩
    simp only [Thresholds.ofTemplate]
    refine (List.mem_insertionSort _).mpr (List.mem_append_left _ ?_)
    exact List.mem_filterMap.mpr ⟨(some 0, color), hmem, rfl⟩

/-- C5 (counterexample): the empty template yields the single-element
list holding only the terminal unreachable threshold — no `min = 0`
entry exists, refuting the claim that every constructed list contains
one. -/
theorem thresholds_empty_template_lacks_zero :
    (Thresholds.ofTemplate { entries := [], unreachable := none }).thresholds
        = [{ min := ⊤, color := "black" }]
    ∧ ∀ th ∈ (Thresholds.ofTemplate { entries := [], unreachable := none }).thresholds,
        th.min ≠ 0 := by
  have h0 : (Thresholds.ofTemplate { entries := [], unreachable := none }).thresholds
      = [{ min := ⊤, color := "black" }] := rfl
  refine ⟨h0, ?_⟩
  intro th hth
  rw [h0] at hth
  simp only [List.mem_singleton] at hth
  rw [hth]
  simp

theorem lookupKey_eq_none {m : List (String × α)} {k : String} :
    lookupKey m k = none ↔ k ∉ m.map Prod.fst := by
  induction m with
  | nil => simp [lookupKey]
  | cons e rest ih =>
      by_cases h : e.1 = k
      · simp [lookupKey, h]
      · simp [lookupKey, h, ih, Ne.symm h]

theorem lookupKey_append_none {m m' : List (String × α)} {k : String}
    (h : lookupKey m k = none) : lookupKey (m ++ m') k = lookupKey m' k := by
  induction m with
  | nil => simp
  | cons e rest ih =>
      rw [lookupKey] at h
      by_cases he : e.1 = k
      · rw [if_pos he] at h
        exact absurd h (by simp)
      · rw [if_neg he] at h
        rw [List.cons_append, lookupKey, if_neg he]
        exact ih h

theorem objSet_of_not_mem {m : List (String × α)} {k : String} (v : α)
    (h : lookupKey m k = none) : objSet m k v = m ++ [(k, v)] := by
  simp [objSet, h]

theorem objSet_map_fst {m : List (String × α)} {k : String} (v : α) :
    (objSet m k v).map Prod.fst
      = if (lookupKey m k).isSome then m.map Prod.fst else m.map Prod.fst ++ [k] := by
  by_cases h : (lookupKey m k).isSome
  · rw [objSet, if_pos h, if_pos h, List.map_map]
    refine List.map_congr_left ?_
    intro p _
    by_cases hp : p.1 = k
    · simp [Function.comp, hp]
    · simp [Function.comp, hp]
  · rw [objSet, if_neg h, if_neg h]
    simp

theorem objSet_keys_nodup {m : List (String × α)} {k : String} (v : α)
    (h : (m.map Prod.fst).Nodup) : ((objSet m k v).map Prod.fst).Nodup := by
  rw [objSet_map_fst]
  by_cases hs : (lookupKey m k).isSome
  · rw [if_pos hs]
    exact h
  · rw [if_neg hs]
    refine List.Nodup.append h (List.nodup_singleton k) (List.disjoint_singleton.mpr ?_)
    have : lookupKey m k = none := Option.not_isSome_iff_eq_none.mp hs
    exact lookupKey_eq_none.mp this

theorem pack_keys_nodup_aux :
    ∀ (R : List Result) (m : List (String × List ℚ)), (m.map Prod.fst).Nodup →
    ((R.foldl
        (fun samplesByUrl result =>
          match result.roundTripStatistics, result.server with
          | some stats, some server => objSet samplesByUrl server.url stats.samples
          | _, _ => samplesByUrl)
        m).map Prod.fst).Nodup := by
  intro R
  induction R with
  | nil => intro m h; simpa using h
  | cons r R ih =>
      intro m h
      rw [List.foldl_cons]
      refine ih _ ?_
      cases hs : r.roundTripStatistics <;> cases hv : r.server <;> simp [hs, hv]
      · exact h
      · exact h
      · exact h
      · exact objSet_keys_nodup _ h

/-- The URL keys of a packed map are always distinct: `objSet` replaces
in place when a key recurs. -/
theorem pack_keys_nodup (R : List Result) : ((Result.pack R).map Prod.fst).Nodup :=
  pack_keys_nodup_aux R [] (by simp)

theorem foldl_objSet_eq {α β : Type} (f : String × α → β) :
    ∀ (P : List (String × α)) (m : List (String × β)),
    (P.map Prod.fst).Nodup → (∀ k ∈ P.map Prod.fst, lookupKey m k = none) →
    P.foldl (fun acc e => objSet acc e.1 (f e)) m = m ++ P.map (fun e => (e.1, f e)) := by
  intro P
  induction P with
  | nil => intro m _ _; simp
  | cons e P ih =>
      intro m hnodup hfresh
      rw [List.foldl_cons,
        objSet_of_not_mem (f e) (hfresh e.1 (by simp)),
        ih (m ++ [(e.1, f e)]) (by simpa using hnodup.of_cons) ?_]
      · simp
      · intro k hk
        have hne : e.1 ≠ k := by
          rintro rfl
          rw [List.map_cons] at hnodup
          exact (List.nodup_cons.mp hnodup).1 hk
        rw [lookupKey_append_none (hfresh k (by simp [hk]))]
        simp [lookupKey, hne]

theorem lookupKey_map_entry {α β : Type} (f : String × α → β) :
    ∀ (P : List (String × α)) (k : String),
    lookupKey (P.map (fun e => (e.1, f e))) k = (lookupKey P k).map (fun v => f (k, v)) := by
  intro P
  induction P with
  | nil => intro k; rfl
  | cons e P ih =>
      intro k
      by_cases he : e.1 = k
      · subst he
        simp [lookupKey]
      · simp [lookupKey, he, ih]

theorem lookupKey_eq_some_of_mem_nodup :
    ∀ {P : List (String × α)} {k : String} {v : α},
    (P.map Prod.fst).Nodup → (k, v) ∈ P → lookupKey P k = some v := by
  intro P
  induction P with
  | nil => intro k v _ h; simp at h
  | cons e P ih =>
      intro k v hnodup hmem
      rcases List.mem_cons.mp hmem with rfl | hmem'
      · simp [lookupKey]
      · have hk : k ∈ P.map Prod.fst := List.mem_map.mpr ⟨(k, v), hmem', rfl⟩
        have hne : e.1 ≠ k := by
          rintro rfl
          rw [List.map_cons] at hnodup
          exact (List.nodup_cons.mp hnodup).1 hk
        rw [lookupKey, if_neg hne]
        exact ih (by simpa using hnodup.of_cons) hmem'

theorem lookupKey_append_of_some {m m' : List (String × α)} {k : String} {v : α}
    (h : lookupKey m k = some v) : lookupKey (m ++ m') k = some v := by
  induction m with
  | nil => simp [lookupKey] at h
  | cons e rest ih =>
      rw [lookupKey] at h
      by_cases he : e.1 = k
      · rw [if_pos he] at h
        rw [List.cons_append, lookupKey, if_pos he]
        exact h
      · rw [if_neg he] at h
        rw [List.cons_append, lookupKey, if_neg he]
        exact ih h

theorem lookupKey_map_replace_self :
    ∀ (m : List (String × α)) (k : String) (v : α), (lookupKey m k).isSome →
    lookupKey (m.map (fun p => if p.1 = k then (k, v) else p)) k = some v := by
  intro m k v
  induction m with
  | nil => intro hs; simp [lookupKey] at hs
  | cons e rest ih =>
      intro hs
      by_cases he : e.1 = k
      · rw [List.map_cons, if_pos he, lookupKey, if_pos rfl]
      · rw [lookupKey, if_neg he] at hs
        rw [List.map_cons, if_neg he, lookupKey, if_neg he]
        exact ih hs

theorem lookupKey_map_replace_ne {k k' : String} (hne : k' ≠ k)
    (v : α) :
    ∀ (m : List (String × α)),
    lookupKey (m.map (fun p => if p.1 = k then (k, v) else p)) k' = lookupKey m k' := by
  intro m
  induction m with
  | nil => rfl
  | cons e rest ih =>
      by_cases he : e.1 = k
      · rw [List.map_cons, if_pos he, lookupKey, lookupKey,
          if_neg (fun h => hne (Eq.symm h)),
          if_neg (fun h => hne (Eq.trans (Eq.symm h) he))]
        exact ih
      · rw [List.map_cons, if_neg he, lookupKey, lookupKey]
        by_cases he' : e.1 = k'
        · rw [if_pos he', if_pos he']
        · rw [if_neg he', if_neg he']
          exact ih

theorem lookupKey_objSet_self (m : List (String × α)) (k : String) (v : α) :
    lookupKey (objSet m k v) k = some v := by
  rw [objSet]
  by_cases hs : (lookupKey m k).isSome
  · rw [if_pos hs]
    exact lookupKey_map_replace_self m k v hs
  · rw [if_neg hs]
    rw [lookupKey_append_none (Option.not_isSome_iff_eq_none.mp hs), lookupKey, if_pos rfl]

theorem lookupKey_objSet_ne {k k' : String} (hne : k' ≠ k)
    (m : List (String × α)) (v : α) :
    lookupKey (objSet m k v) k' = lookupKey m k' := by
  rw [objSet]
  by_cases hs : (lookupKey m k).isSome
  · rw [if_pos hs]
    exact lookupKey_map_replace_ne hne v m
  · rw [if_neg hs]
    cases hl : lookupKey m k' with
    | some w => rw [lookupKey_append_of_some hl]
    | none =>
        rw [lookupKey_append_none hl, lookupKey, if_neg (fun h => hne (Eq.symm h))]
        rfl

theorem find?_append_eq {α : Type} (p : α → Bool) :
    ∀ (l₁ l₂ : List α), (l₁ ++ l₂).find? p
      = match l₁.find? p with
        | some x => some x
        | none => l₂.find? p := by
  intro l₁ l₂
  induction l₁ with
  | nil => rfl
  | cons a l₁ ih =>
      cases hp : p a
      · rw [List.cons_append, List.find?_cons_of_neg _ (by simp [hp]),
          List.find?_cons_of_neg _ (by simp [hp]), ih]
      · rw [List.cons_append, List.find?_cons_of_pos _ hp, List.find?_cons_of_pos _ hp]

/-- The net effect of the second-pass mutations on the object stored for
`url`: the name and server of the last live server whose URL is `url`
are assigned over it (each iteration for a matching server overwrites
both fields), and an object no live server matches keeps its fields. -/
def applyLastServer (servers : List (String × Server)) (url : String) (v₀ : Result) : Result :=
  match servers.reverse.find? (fun e => e.2.url == url) with
  | some e => { v₀ with name := some e.1, server := some e.2 }
  | none => v₀

theorem applyLastServer_nil (url : String) (v₀ : Result) :
    applyLastServer [] url v₀ = v₀ := rfl

theorem applyLastServer_cons_ne {e : String × Server} {url : String}
    (h : e.2.url ≠ url) (S : List (String × Server)) (v₀ : Result) :
    applyLastServer (e :: S) url v₀ = applyLastServer S url v₀ := by
  rw [applyLastServer, applyLastServer, List.reverse_cons, find?_append_eq]
  cases hf : S.reverse.find? (fun e => e.2.url == url) with
  | some x => rfl
  | none =>
      rw [List.find?_cons_of_neg _ (by simpa using h), List.find?_nil]

theorem applyLastServer_cons_self {e : String × Server} {url : String}
    (h : e.2.url = url) (S : List (String × Server)) (v₀ : Result) :
    applyLastServer (e :: S) url v₀
      = applyLastServer S url { v₀ with name := some e.1, server := some e.2 } := by
  rw [applyLastServer, applyLastServer, List.reverse_cons, find?_append_eq]
  cases hf : S.reverse.find? (fun e => e.2.url == url) with
  | some x => rfl
  | none =>
      rw [List.find?_cons_of_pos _ (by simpa using h)]

/-- The two passes of `Result.unpack`'s server loop, characterised: the
output array lists, in server order, a reference for every server whose
URL is in the store and a fresh unreachable result for the others; and
the final store holds, at each URL, its original object with the
name/server of the last matching live server assigned over it. -/
theorem unpack_pass2 (T : Thresholds) :
    ∀ (S : List (String × Server)) (m : List (String × Result)) (acc : List (String ⊕ Result)),
    ((S.foldl (pushResultForServer T) (m, acc)).2
        = acc ++ S.map (fun e =>
            if (lookupKey m e.2.url).isSome then Sum.inl e.2.url
            else Sum.inr { unreachableResult T with name := some e.1, server := some e.2 }))
    ∧ (∀ url, lookupKey (S.foldl (pushResultForServer T) (m, acc)).1 url
        = (lookupKey m url).map (applyLastServer S url)) := by
  intro S
  induction S with
  | nil =>
      intro m acc
      refine ⟨by simp, fun url => ?_⟩
      simp only [List.foldl_nil]
      cases lookupKey m url
      · rfl
      · rfl
  | cons e S' ih =>
      intro m acc
      rw [List.foldl_cons]
      cases hl : lookupKey m e.2.url with
      | some v =>
          have hstep : pushResultForServer T (m, acc) e
              = (objSet m e.2.url { v with name := some e.1, server := some e.2 },
                 acc ++ [Sum.inl e.2.url]) := by
            simp [pushResultForServer, hl]
          rw [hstep]
          obtain ⟨ihA, ihB⟩ :=
            ih (objSet m e.2.url { v with name := some e.1, server := some e.2 })
              (acc ++ [Sum.inl e.2.url])
          constructor
          · rw [ihA, List.map_cons, hl]
            have hmap : ∀ a ∈ S',
                (if (lookupKey
                      (objSet m e.2.url { v with name := some e.1, server := some e.2 })
                      a.2.url).isSome
                  then Sum.inl a.2.url
                  else Sum.inr { unreachableResult T with name := some a.1, server := some a.2 })
                = (if (lookupKey m a.2.url).isSome
                  then Sum.inl a.2.url
                  else Sum.inr { unreachableResult T with name := some a.1, server := some a.2 }) := by
              intro a _
              by_cases ha : a.2.url = e.2.url
              · rw [ha, lookupKey_objSet_self, hl]
                simp
              · rw [lookupKey_objSet_ne ha]
            rw [List.map_congr_left hmap]
            simp
          · intro url
            rw [ihB url]
            by_cases hu : url = e.2.url
            · subst hu
              rw [lookupKey_objSet_self, hl, Option.map_some', Option.map_some',
                applyLastServer_cons_self rfl]
            · rw [lookupKey_objSet_ne hu]
              cases hm : lookupKey m url with
              | none => rfl
              | some w =>
                  rw [Option.map_some', Option.map_some',
                    applyLastServer_cons_ne (fun h => hu h.symm)]
      | none =>
          have hstep : pushResultForServer T (m, acc) e
              = (m, acc ++ [Sum.inr
                  { unreachableResult T with name := some e.1, server := some e.2 }]) := by
            simp [pushResultForServer, hl]
          rw [hstep]
          obtain ⟨ihA, ihB⟩ :=
            ih m (acc ++ [Sum.inr { unreachableResult T with name := some e.1, server := some e.2 }])
          constructor
          · rw [ihA, List.map_cons, hl]
            simp
          · intro url
            rw [ihB url]
            by_cases hu : url = e.2.url
            · subst hu
              rw [hl]
              rfl
            · cases hm : lookupKey m url with
              | none => rfl
              | some w =>
                  rw [Option.map_some', Option.map_some',
                    applyLastServer_cons_ne (fun h => hu h.symm)]

theorem unpackResultsByUrl_eq (T : Thresholds) (P : List (String × List ℚ))
    (h : (P.map Prod.fst).Nodup) :
    unpackResultsByUrl T P = P.map (fun e => (e.1, unpackResult T e.2)) := by
  show P.foldl (fun acc e => objSet acc e.1 ((fun e => unpackResult T e.2) e)) [] = _
  rw [foldl_objSet_eq (fun e => unpackResult T e.2) P [] h (fun k _ => rfl)]
  simp

def objSetEntry (m : List (String × List ℚ)) (e : Option (String × List ℚ)) :
    List (String × List ℚ) :=
  match e with
  | some e => objSet m e.1 e.2
  | none => m

theorem pack_body_eq :
    (fun (samplesByUrl : List (String × List ℚ)) (result : Result) =>
        match result.roundTripStatistics, result.server with
        | some stats, some server => objSet samplesByUrl server.url stats.samples
        | _, _ => samplesByUrl)
      = fun samplesByUrl result => objSetEntry samplesByUrl (packEntry result) := by
  funext m r
  cases hs : r.roundTripStatistics <;> cases hv : r.server <;>
    simp [objSetEntry, packEntry, hs, hv]

theorem pack_foldl_filterMap :
    ∀ (R : List Result) (m : List (String × List ℚ)),
    R.foldl (fun m r => objSetEntry m (packEntry r)) m
      = (R.filterMap packEntry).foldl (fun acc e => objSet acc e.1 (Prod.snd e)) m := by
  intro R
  induction R with
  | nil => intro m; simp
  | cons r R ih =>
      intro m
      rw [List.foldl_cons, List.filterMap_cons]
      cases hr : packEntry r with
      | none => exact ih m
      | some e => exact ih (objSet m e.1 e.2)

/-- Under distinct emitted URLs, `Result.pack` is exactly the list of
`(url, samples)` entries of the stats-bearing results. -/
theorem pack_eq_filterMap (R : List Result)
    (h : ((R.filterMap packEntry).map Prod.fst).Nodup) :
    Result.pack R = R.filterMap packEntry := by
  rw [Result.pack, pack_body_eq, pack_foldl_filterMap,
    foldl_objSet_eq Prod.snd _ [] h (fun k _ => rfl)]
  simp

/-- C1: unpacking `pack R` against the live server map `S` and
thresholds `T` classifies every server present both in `R` (with
statistics, under the well-formedness condition that the URLs `pack`
emits are distinct — server identity is the URL) and in `S` exactly as
reclassifying that server's original sample set directly with `T`:
same niceness, same color. -/
theorem Result.unpack_def (servers : List (String × Server)) (thresholds : Thresholds)
    (packed : List (String × List ℚ)) :
    Result.unpack servers thresholds packed
      = (servers.foldl (pushResultForServer thresholds)
            (unpackResultsByUrl thresholds packed, [])).2.map
          (derefResult
            (servers.foldl (pushResultForServer thresholds)
              (unpackResultsByUrl thresholds packed, [])).1) := rfl

theorem applyLastServer_niceness (S : List (String × Server)) (url : String) (v₀ : Result) :
    (applyLastServer S url v₀).niceness = v₀.niceness := by
  cases hf : S.reverse.find? (fun e => e.2.url == url) <;> simp [applyLastServer, hf]

theorem applyLastServer_color (S : List (String × Server)) (url : String) (v₀ : Result) :
    (applyLastServer S url v₀).color = v₀.color := by
  cases hf : S.reverse.find? (fun e => e.2.url == url) <;> simp [applyLastServer, hf]

theorem applyLastServer_complete (S : List (String × Server)) (url : String) (v₀ : Result) :
    (applyLastServer S url v₀).complete = v₀.complete := by
  cases hf : S.reverse.find? (fun e => e.2.url == url) <;> simp [applyLastServer, hf]

theorem unpack_pack_reclassifies :
    ∀ (R : List Result) (T : Thresholds) (S : List (String × Server)) (i : ℕ)
      (name : String) (sv : Server) (r : Result) (sv0 : Server) (st : Statistics),
    ((R.filterMap packEntry).map Prod.fst).Nodup →
    S[i]? = some (name, sv) →
    r ∈ R → r.server = some sv0 → r.roundTripStatistics = some st → sv0.url = sv.url →
    ∃ out, (Result.unpack S T (Result.pack R))[i]? = some out
      ∧ out.niceness = some (T.getNiceness (some (Statistics.ofSamples st.samples)))
      ∧ out.color
          = some (T.getColor ((T.getNiceness (some (Statistics.ofSamples st.samples))) : ℤ)) := by
  intro R T S i name sv r sv0 st hN hS hr hserver hstats hurl
  have hentry : packEntry r = some (sv0.url, st.samples) := by
    simp [packEntry, hstats, hserver]
  have hmem : (sv0.url, st.samples) ∈ R.filterMap packEntry :=
    List.mem_filterMap.mpr ⟨r, hr, hentry⟩
  have hlook : lookupKey (R.filterMap packEntry) sv.url = some st.samples := by
    rw [← hurl]
    exact lookupKey_eq_some_of_mem_nodup hN hmem
  have hrbu : lookupKey (unpackResultsByUrl T (Result.pack R)) sv.url
      = some (unpackResult T st.samples) := by
    rw [pack_eq_filterMap R hN, unpackResultsByUrl_eq T _ hN,
      lookupKey_map_entry (fun e => unpackResult T e.2), hlook]
    rfl
  obtain ⟨hA, hB⟩ := unpack_pass2 T S (unpackResultsByUrl T (Result.pack R)) []
  rw [Result.unpack_def, hA, List.nil_append]
  refine ⟨applyLastServer S sv.url (unpackResult T st.samples), ?_, ?_, ?_⟩
  · rw [List.getElem?_map, List.getElem?_map, hS, Option.map_some', Option.map_some']
    simp only [hrbu, Option.isSome_some, if_true, derefResult, hB sv.url,
      Option.map_some', Option.getD_some]
  · rw [applyLastServer_niceness]
    rfl
  · rw [applyLastServer_color]
    rfl

theorem unpack_pack_reclassifies_witness :
    ∃ out,
      (Result.unpack [("A", Server.mk "https://a.example/" none)] DEFAULT_THRESHOLDS
          (Result.pack [Result.mk (some "A") (some (Server.mk "https://a.example/" none))
            (some 0) (some "c") (some (Statistics.ofSamples [10])) true]))[0]?
        = some out
      ∧ out.niceness = some (DEFAULT_THRESHOLDS.getNiceness
          (some (Statistics.ofSamples (Statistics.ofSamples [10]).samples)))
      ∧ out.color = some (DEFAULT_THRESHOLDS.getColor
          ((DEFAULT_THRESHOLDS.getNiceness
            (some (Statistics.ofSamples (Statistics.ofSamples [10]).samples))) : ℤ)) :=
  unpack_pack_reclassifies
    [Result.mk (some "A") (some (Server.mk "https://a.example/" none)) (some 0) (some "c")
      (some (Statistics.ofSamples [10])) true]
    DEFAULT_THRESHOLDS [("A", Server.mk "https://a.example/" none)] 0 "A"
    (Server.mk "https://a.example/" none)
    (Result.mk (some "A") (some (Server.mk "https://a.example/" none)) (some 0) (some "c")
      (some (Statistics.ofSamples [10])) true)
    (Server.mk "https://a.example/" none) (Statistics.ofSamples [10])
    (by simp [packEntry]) rfl (by simp) rfl rfl rfl

theorem lookupKey_some_mem :
    ∀ {m : List (String × α)} {k : String} {v : α},
    lookupKey m k = some v → (k, v) ∈ m := by
  intro m
  induction m with
  | nil => intro k v h; simp [lookupKey] at h
  | cons e rest ih =>
      intro k v h
      rw [lookupKey] at h
      by_cases he : e.1 = k
      · rw [if_pos he] at h
        have hkv : (k, v) = e := by
          rw [← he, ← Option.some_inj.mp h]
        rw [hkv]
        exact List.mem_cons_self e rest
      · rw [if_neg he] at h
        exact List.mem_cons_of_mem e (ih h)

theorem mem_objSet {m : List (String × α)} {k : String} {v : α} {e : String × α}
    (h : e ∈ objSet m k v) : e ∈ m ∨ e.2 = v := by
  rw [objSet] at h
  by_cases hs : (lookupKey m k).isSome
  · rw [if_pos hs] at h
    obtain ⟨p, hp, hpe⟩ := List.mem_map.mp h
    by_cases hpk : p.1 = k
    · rw [if_pos hpk] at hpe
      right
      rw [← hpe]
    · rw [if_neg hpk] at hpe
      exact Or.inl (hpe ▸ hp)
  · rw [if_neg hs] at h
    rcases List.mem_append.mp h with h' | h'
    · exact Or.inl h'
    · right
      rw [List.mem_singleton.mp h']

theorem unpackResultsByUrl_values_complete (T : Thresholds) :
    ∀ (P : List (String × List ℚ)) (acc : List (String × Result)),
    (∀ e ∈ acc, (e : String × Result).2.complete = true) →
    ∀ e ∈ P.foldl (fun acc e => objSet acc e.1 (unpackResult T e.2)) acc,
      e.2.complete = true := by
  intro P
  induction P with
  | nil => intro acc h e he; exact h e he
  | cons p P ih =>
      intro acc h e he
      rw [List.foldl_cons] at he
      refine ih _ ?_ e he
      intro e' he'
      rcases mem_objSet he' with h' | h'
      · exact h e' h'
      · rw [h']
        rfl

theorem unpackResultsByUrl_complete {T : Thresholds} {P : List (String × List ℚ)}
    {k : String} {r0 : Result}
    (h : lookupKey (unpackResultsByUrl T P) k = some r0) : r0.complete = true :=
  unpackResultsByUrl_values_complete T P [] (by simp) (k, r0) (lookupKey_some_mem h)

/-- C7 (amended): unpacking a packed map against the live server map `S`
outputs exactly one completed Result per live server, in the iteration
order of `S`. The name and server carried by the `i`-th entry are those
of the *last* live server sharing the `i`-th server's URL — the program
mutates and re-pushes the shared unpacked object — so they are exactly
the `i`-th server's whenever the live servers' URLs are pairwise
distinct, and always when the URL is absent from the packed mapping
(then a fresh unreachable result with terminal niceness and color and no
statistics is built per server). Every output entry belongs to a live
server, so packed entries for URLs no longer in `S` are dropped. -/
theorem unpack_reconciliation :
    ∀ (R : List Result) (T : Thresholds) (S : List (String × Server)),
    (Result.unpack S T (Result.pack R)).length = S.length
    ∧ (∀ (i : ℕ) (name : String) (sv : Server), S[i]? = some (name, sv) →
        ∃ out, (Result.unpack S T (Result.pack R))[i]? = some out
          ∧ out.complete = true
          ∧ ∃ (name' : String) (sv' : Server), (name', sv') ∈ S ∧ sv'.url = sv.url
              ∧ out.name = some name' ∧ out.server = some sv')
    ∧ ((S.map (fun e => e.2.url)).Nodup →
        ∀ (i : ℕ) (name : String) (sv : Server), S[i]? = some (name, sv) →
        ∃ out, (Result.unpack S T (Result.pack R))[i]? = some out
          ∧ out.name = some name ∧ out.server = some sv)
    ∧ (∀ (i : ℕ) (name : String) (sv : Server), S[i]? = some (name, sv) →
        sv.url ∉ (Result.pack R).map Prod.fst →
        ∃ out, (Result.unpack S T (Result.pack R))[i]? = some out
          ∧ out.name = some name ∧ out.server = some sv
          ∧ out.niceness = some (T.thresholds.length - 1)
          ∧ out.color = some (T.getColor ((T.thresholds.length - 1 : ℕ) : ℤ))
          ∧ out.roundTripStatistics = none)
    ∧ (∀ out ∈ Result.unpack S T (Result.pack R),
        ∃ name sv, (name, sv) ∈ S ∧ out.name = some name ∧ out.server = some sv) := by
  intro R T S
  obtain ⟨hA, hB⟩ := unpack_pass2 T S (unpackResultsByUrl T (Result.pack R)) []
  have hidx : ∀ (i : ℕ) (name : String) (sv : Server), S[i]? = some (name, sv) →
      (Result.unpack S T (Result.pack R))[i]?
        = some (derefResult
            (S.foldl (pushResultForServer T) (unpackResultsByUrl T (Result.pack R), [])).1
            (if (lookupKey (unpackResultsByUrl T (Result.pack R)) sv.url).isSome
              then Sum.inl sv.url
              else Sum.inr { unreachableResult T with name := some name, server := some sv })) := by
    intro i name sv hS
    rw [Result.unpack_def, hA, List.nil_append, List.getElem?_map, List.getElem?_map, hS,
      Option.map_some', Option.map_some']
  have hpresent : ∀ (sv : Server) (v₀ : Result),
      lookupKey (unpackResultsByUrl T (Result.pack R)) sv.url = some v₀ →
      derefResult
          (S.foldl (pushResultForServer T) (unpackResultsByUrl T (Result.pack R), [])).1
          (Sum.inl sv.url)
        = applyLastServer S sv.url v₀ := by
    intro sv v₀ hp
    simp only [derefResult, hB sv.url, hp, Option.map_some', Option.getD_some]
  have hlastOf : ∀ (name : String) (sv : Server), (name, sv) ∈ S →
      ∃ e', S.reverse.find? (fun e => e.2.url == sv.url) = some e'
        ∧ (e'.1, e'.2) ∈ S ∧ e'.2.url = sv.url := by
    intro name sv hmem
    have hsome : (S.reverse.find? (fun e => e.2.url == sv.url)).isSome :=
      List.find?_isSome.mpr ⟨(name, sv), List.mem_reverse.mpr hmem, by simp⟩
    obtain ⟨e', hf⟩ := Option.isSome_iff_exists.mp hsome
    refine ⟨e', hf, ?_, ?_⟩
    · simpa using List.mem_reverse.mp (List.mem_of_find?_eq_some hf)
    · simpa using List.find?_some hf
  refine ⟨?_, ?_, ?_, ?_, ?_⟩
  · rw [Result.unpack_def, hA, List.nil_append]
    simp
  · intro i name sv hS
    have hmem : (name, sv) ∈ S := List.mem_iff_getElem?.mpr ⟨i, hS⟩
    cases hp : lookupKey (unpackResultsByUrl T (Result.pack R)) sv.url with
    | some v₀ =>
        obtain ⟨e', hf, hmem', hurl'⟩ := hlastOf name sv hmem
        refine ⟨applyLastServer S sv.url v₀, ?_, ?_, e'.1, e'.2, hmem', hurl', ?_, ?_⟩
        · rw [hidx i name sv hS, hp]
          simp only [Option.isSome_some, if_true]
          rw [hpresent sv v₀ hp]
        · rw [applyLastServer_complete]
          exact unpackResultsByUrl_complete hp
        · simp [applyLastServer, hf]
        · simp [applyLastServer, hf]
    | none =>
        refine ⟨{ unreachableResult T with name := some name, server := some sv },
          ?_, rfl, name, sv, hmem, rfl, rfl, rfl⟩
        rw [hidx i name sv hS, hp]
        simp [derefResult]
  · intro hnodup i name sv hS
    have hmem : (name, sv) ∈ S := List.mem_iff_getElem?.mpr ⟨i, hS⟩
    cases hp : lookupKey (unpackResultsByUrl T (Result.pack R)) sv.url with
    | some v₀ =>
        obtain ⟨e', hf, hmem', hurl'⟩ := hlastOf name sv hmem
        have he' : e' = (name, sv) := by
          refine List.inj_on_of_nodup_map hnodup ?_ hmem ?_
          · simpa using hmem'
          · simpa using hurl'
        refine ⟨applyLastServer S sv.url v₀, ?_, ?_, ?_⟩
        · rw [hidx i name sv hS, hp]
          simp only [Option.isSome_some, if_true]
          rw [hpresent sv v₀ hp]
        · simp [applyLastServer, hf, he']
        · simp [applyLastServer, hf, he']
    | none =>
        refine ⟨{ unreachableResult T with name := some name, server := some sv },
          ?_, rfl, rfl⟩
        rw [hidx i name sv hS, hp]
        simp [derefResult]
  · intro i name sv hS habsent
    have hp : lookupKey (unpackResultsByUrl T (Result.pack R)) sv.url = none := by
      rw [unpackResultsByUrl_eq T _ (pack_keys_nodup R),
        lookupKey_map_entry (fun e => unpackResult T e.2),
        lookupKey_eq_none.mpr habsent]
      rfl
    refine ⟨{ unreachableResult T with name := some name, server := some sv },
      ?_, rfl, rfl, ?_, ?_, rfl⟩
    · rw [hidx i name sv hS, hp]
      simp [derefResult]
    · simp [unreachableResult, Thresholds.getNiceness]
    · simp [unreachableResult, Thresholds.getNiceness]
  · intro out hout
    rw [Result.unpack_def, hA, List.nil_append] at hout
    obtain ⟨y, hy, rfl⟩ := List.mem_map.mp hout
    obtain ⟨e, he, rfl⟩ := List.mem_map.mp hy
    cases hp : lookupKey (unpackResultsByUrl T (Result.pack R)) e.2.url with
    | some v₀ =>
        obtain ⟨e', hf, hmem', hurl'⟩ := hlastOf e.1 e.2 (by simpa using he)
        simp only [hp, Option.isSome_some, if_true]
        rw [hpresent e.2 v₀ hp]
        exact ⟨e'.1, e'.2, hmem', by simp [applyLastServer, hf], by simp [applyLastServer, hf]⟩
    | none =>
        simp only [hp, Option.isSome_none, Bool.false_eq_true, if_false]
        exact ⟨e.1, e.2, by simpa using he, rfl, rfl⟩

/-- C7 (counterexample to the original claim): two live servers A and B
sharing the URL "u", which is present in the packed data. The program
pushes the same unpacked object for both and the second iteration
overwrites its name and server, so the output entry at index 0 — the
entry for server A — carries the name "B". -/
theorem unpack_aliasing_counterexample :
    ((Result.unpack [("A", Server.mk "u" none), ("B", Server.mk "u" none)] DEFAULT_THRESHOLDS
        (Result.pack [Result.mk (some "A") (some (Server.mk "u" none)) (some 0) (some "c")
          (some (Statistics.ofSamples [])) true]))[0]?).map Result.name
      = some (some "B")
    ∧ ((Result.unpack [("A", Server.mk "u" none), ("B", Server.mk "u" none)] DEFAULT_THRESHOLDS
        (Result.pack [Result.mk (some "A") (some (Server.mk "u" none)) (some 0) (some "c")
          (some (Statistics.ofSamples [])) true]))[0]?).map Result.name
      ≠ some (some "A") := by
  have h1 : ((Result.unpack [("A", Server.mk "u" none), ("B", Server.mk "u" none)]
      DEFAULT_THRESHOLDS
      (Result.pack [Result.mk (some "A") (some (Server.mk "u" none)) (some 0) (some "c")
        (some (Statistics.ofSamples [])) true]))[0]?).map Result.name = some (some "B") := rfl
  refine ⟨h1, ?_⟩
  rw [h1]
  simp
